import Mathlib

/-!
Verification development for the GeoMasterPy snippet transpiler
(`geomasterpy.data`'s `js_snippet_to_python`, the spec's `translate`
operation): a source-to-source translator from the Earth Engine web-console
JavaScript dialect to the Python dialect of the same API.

The transpiler itself ships outside the files available here (only its
callers and documentation are present), so every component below is
modelled from the specification: Tokenizer, Dialect Rule Table, Statement
Rewriter, Literal Reformatter and Emitter, composed into
`translate : String → Except TransErr String`.
-/

namespace GMP

/-- Modelled from the spec: token kinds of the Tokenizer
(`keyword|identifier|string|number|punctuation|comment|whitespace`). -/
inductive TokenKind where
  | keyword | identifier | string | number | punctuation | comment | whitespace
deriving DecidableEq, Repr

/-- Modelled from the spec: a lexical token `{kind, text, position}`,
produced once by the Tokenizer and immutable downstream. `text` is kept as
a character list; `pos` is the character offset of the token's start. -/
structure Token where
  kind : TokenKind
  text : List Char
  pos : Nat
deriving DecidableEq, Repr

/-- Modelled from the spec: the distinct fatal failure values
(`FatalSyntaxError`): unterminated string, unterminated block comment, and
unbalanced brackets, each carrying the offending position. -/
inductive TransErr where
  | unterminatedString (pos : Nat)
  | unterminatedComment (pos : Nat)
  | unbalanced (pos : Nat)
deriving DecidableEq, Repr

/-- The fixed keyword set tagged distinctly from ordinary identifiers:
declaration keywords, the anonymous-function keywords, and the
boolean/null-like literal spellings. -/
def kwTexts : List (List Char) :=
  ["var", "let", "const", "function", "return",
   "true", "false", "null", "undefined"].map String.toList

def isIdentStart (c : Char) : Bool := c.isAlpha || c = '_'

def isIdentChar (c : Char) : Bool := c.isAlphanum || c = '_'

def isSpaceChar (c : Char) : Bool := c = ' ' || c = '\t' || c = '\r'

/-- String-literal scanner: number of characters (after the opening quote)
consumed up to and including the closing quote `q`; escaped characters are
retained verbatim; an unescaped newline or end of input means the string
is unterminated (`none`). -/
def strLen (q : Char) : List Char → Option Nat
  | [] => none
  | c :: cs =>
    if c = q then some 1
    else if c = '\n' then none
    else if c = '\\' then
      match cs with
      | [] => none
      | _ :: cs' => (strLen q cs').map (· + 2)
    else (strLen q cs).map (· + 1)

/-- Block-comment scanner: number of characters (after the opening marker)
consumed up to and including the closing marker; end of input without one
means the comment is unterminated. -/
def blockLen : List Char → Option Nat
  | [] => none
  | '*' :: '/' :: _ => some 2
  | _ :: cs => (blockLen cs).map (· + 1)

/-- Modelled from the spec: scan one token starting at character `c` with
remaining input `cs` (offset `p`): returns the token kind and the total
number of characters the token covers. Strings keep their quote style;
comments are opaque; identifiers/keywords are longest-match
alphanumeric+underscore runs; each punctuation character is its own token;
whitespace runs and newlines are retained as positional information. -/
def scanTok (p : Nat) (c : Char) (cs : List Char) : Except TransErr (TokenKind × Nat) :=
  if c = '\'' ∨ c = '"' then
    match strLen c cs with
    | some m => .ok (.string, m)
    | none => .error (.unterminatedString p)
  else if c = '/' ∧ cs.head? = some '/' then
    .ok (.comment, (cs.takeWhile (· ≠ '\n')).length)
  else if c = '/' ∧ cs.head? = some '*' then
    match cs with
    | _ :: cs' =>
      match blockLen cs' with
      | some m => .ok (.comment, 1 + m)
      | none => .error (.unterminatedComment p)
    | [] => .error (.unterminatedComment p)
  else if isIdentStart c then
    .ok (if c :: cs.takeWhile isIdentChar ∈ kwTexts then .keyword else .identifier,
      (cs.takeWhile isIdentChar).length)
  else if c.isDigit then
    match cs.dropWhile Char.isDigit with
    | '.' :: d :: r' =>
      if d.isDigit then
        .ok (.number, (cs.takeWhile Char.isDigit).length + 1 +
          ((d :: r').takeWhile Char.isDigit).length)
      else .ok (.number, (cs.takeWhile Char.isDigit).length)
    | _ => .ok (.number, (cs.takeWhile Char.isDigit).length)
  else if isSpaceChar c then
    .ok (.whitespace, (cs.takeWhile isSpaceChar).length)
  else if c = '\n' then .ok (.whitespace, 0)
  else .ok (.punctuation, 0)

/-- Tokenizer loop (structural on fuel so that the kernel can evaluate
it; one unit of fuel covers at least one consumed character, so
`fuel = input length` always suffices and the fuel-exhaustion branch is
unreachable from `tokenize`). Each token's text is the slice of input it
covers: the head character plus the `scanTok` extra length. -/
def tokGo : Nat → Nat → List Char → Except TransErr (List Token)
  | _, _, [] => .ok []
  | 0, p, _ :: _ => .error (.unbalanced p)
  | fuel + 1, p, c :: cs =>
    match scanTok p c cs with
    | .error e => .error e
    | .ok (k, e) =>
      match tokGo fuel (p + 1 + e) (cs.drop e) with
      | .error err => .error err
      | .ok ts => .ok (⟨k, c :: cs.take e, p⟩ :: ts)

/-- Modelled from the spec: the Tokenizer. Turns raw snippet text into an
ordered, gapless token sequence, or fails with a distinct fatal error for
an unterminated string or block comment. -/
def tokenize (p : Nat) (cs : List Char) : Except TransErr (List Token) :=
  tokGo cs.length p cs

/-- Totality and losslessness of the tokenizer loop: concatenating the
token texts in order reproduces the input character list exactly. -/
theorem tokGo_flatten (fuel : Nat) :
    ∀ p cs ts, cs.length ≤ fuel → tokGo fuel p cs = .ok ts →
      (ts.map Token.text).flatten = cs := by
  induction fuel with
  | zero =>
    intro p cs ts hf h
    cases cs with
    | nil =>
      simp [tokGo] at h
      simp [h]
    | cons c cs => simp at hf
  | succ fuel ih =>
    intro p cs ts hf h
    match cs with
    | [] =>
      simp [tokGo] at h
      simp [h]
    | c :: cs =>
      rw [tokGo] at h
      match hscan : scanTok p c cs with
      | .error e => simp [hscan] at h
      | .ok (k, e) =>
        simp only [hscan] at h
        match hrec : tokGo fuel (p + 1 + e) (cs.drop e) with
        | .error err => simp [hrec] at h
        | .ok ts' =>
          simp only [hrec, Except.ok.injEq] at h
          subst h
          simp only [List.map_cons, List.flatten_cons]
          have hlen : (cs.drop e).length ≤ fuel := by
            simp only [List.length_cons] at hf
            simp [List.length_drop]
            omega
          rw [ih (p + 1 + e) (cs.drop e) ts' hlen hrec, List.cons_append,
            List.take_append_drop]

theorem tokenize_flatten (p : Nat) (cs : List Char) (ts : List Token)
    (h : tokenize p cs = .ok ts) : (ts.map Token.text).flatten = cs :=
  tokGo_flatten cs.length p cs ts (Nat.le_refl _) h

/-! ## Statement grouping -/

/-- How a logical statement ends: a newline at zero bracket depth, a
terminator followed by more input on the same line, a terminator at end of
input, or bare end of input. -/
inductive Bound where
  | nl | semi | semiEof | eof
deriving DecidableEq, Repr

/-- Modelled from the spec: a Statement is an ordered token run bounded by
a statement boundary, together with the kind of boundary that closed it. -/
abbrev Statement := List Token × Bound

def isWsTok (t : Token) : Bool :=
  match t.kind with
  | .whitespace => true
  | _ => false

def isCommentTok (t : Token) : Bool :=
  match t.kind with
  | .comment => true
  | _ => false

def isNLTok (t : Token) : Bool := isWsTok t && t.text = ['\n']

def isSpaceTok (t : Token) : Bool := isWsTok t && t.text ≠ ['\n']

def isSemiTok (t : Token) : Bool := t.text = [';']

def isOpenTok (t : Token) : Bool :=
  t.text = ['('] || t.text = ['['] || t.text = ['\x7b']

def isCloseTok (t : Token) : Bool :=
  t.text = [')'] || t.text = [']'] || t.text = ['\x7d']

/-- A physical line break at zero depth continues the current statement
when the next line starts (after indentation) with a method-chain dot. -/
def nextIsDot (ts : List Token) : Bool :=
  match ts.dropWhile isSpaceTok with
  | t :: _ => t.text = ['.']
  | [] => false

/-- Modelled from the spec: the Statement Rewriter's grouping pass. Groups
the token sequence into Statements via bracket-depth tracking: a statement
ends only at zero depth on a terminator or a newline (a newline whose next
line begins with a chain dot is absorbed into the statement instead);
whitespace and comments directly after a terminator stay attached to the
statement they trail. A closing bracket at depth zero, or a non-zero depth
at end of input, is a fatal unbalanced-brackets error (`endPos` is the
end-of-input position reported in the latter case). `cur` is the reversed
accumulator of the open statement; `semi` marks trailing-terminator mode. -/
def groupGo (endPos : Nat) : Nat → List Token → Nat → List Token → Bool →
    Except TransErr (List Statement)
  | _, [], d, cur, semi =>
    if d ≠ 0 then .error (.unbalanced endPos)
    else if semi then .ok [(cur.reverse, .semiEof)]
    else if cur.isEmpty then .ok []
    else .ok [(cur.reverse, .eof)]
  | 0, _ :: _, _, _, _ => .error (.unbalanced endPos)
  | fuel + 1, t :: rest, d, cur, true =>
    if isSpaceTok t || isCommentTok t then groupGo endPos fuel rest d (t :: cur) true
    else if isNLTok t then
      (groupGo endPos fuel rest 0 [] false).map (fun ss => (cur.reverse, .nl) :: ss)
    else
      (groupGo endPos fuel (t :: rest) d [] false).map
        (fun ss => (cur.reverse, .semi) :: ss)
  | fuel + 1, t :: rest, d, cur, false =>
    if isOpenTok t then groupGo endPos fuel rest (d + 1) (t :: cur) false
    else if isCloseTok t then
      if d = 0 then .error (.unbalanced t.pos)
      else groupGo endPos fuel rest (d - 1) (t :: cur) false
    else if isSemiTok t && d = 0 then groupGo endPos fuel rest d (t :: cur) true
    else if isNLTok t && d = 0 then
      if nextIsDot rest then groupGo endPos fuel rest d (t :: cur) false
      else (groupGo endPos fuel rest 0 [] false).map (fun ss => (cur.reverse, .nl) :: ss)
    else groupGo endPos fuel rest d (t :: cur) false

/-- Statement grouping: `2·n + 2` fuel always suffices for `n` tokens
(each fuel unit either consumes a token or leaves trailing-terminator
mode), so the fuel-exhaustion branch is unreachable from here. -/
def group (endPos : Nat) (ts : List Token) : Except TransErr (List Statement) :=
  groupGo endPos (2 * ts.length + 2) ts 0 [] false

/-! ## Dialect rule table and statement rewriting -/

def textOf (ts : List Token) : List Char := (ts.map Token.text).flatten

def skipWs (ts : List Token) : List Token := ts.dropWhile isWsTok

def trimWs (ts : List Token) : List Token :=
  ((ts.dropWhile isWsTok).reverse.dropWhile isWsTok).reverse

def declTexts : List (List Char) := ["var", "let", "const"].map String.toList

/-- Modelled from the spec (rule table): the fixed allow-list of
member-call renames — the map widget's add-layer call; every other
member-access name passes through unchanged. -/
def renameMember (s : List Char) : List Char :=
  if s = "addLayer".toList then "add_ee_layer".toList else s

/-- Modelled from the spec (literal reformatter): only literal spellings
that genuinely differ between the dialects are renamed. -/
def pyLit (s : List Char) : List Char :=
  if s = "true".toList then "True".toList
  else if s = "false".toList then "False".toList
  else if s = "null".toList || s = "undefined".toList then "None".toList
  else s

def jsLitTexts : List (List Char) := ["true", "false", "null", "undefined"].map String.toList

/-- Identifiers that signal a construct absent from the rule table
(control flow and similar unsupported statements). -/
def ctrlTexts : List (List Char) :=
  ["for", "while", "switch", "do", "if", "else", "try", "catch", "throw", "class"].map
    String.toList

def fnText : List Char := "function".toList

def retText : List Char := "return".toList

/-- The designated higher-order calls whose sole-argument callbacks are
eligible for inline-function conversion. -/
def hoTexts : List (List Char) := ["map", "filter"].map String.toList

/-- A token that makes the whole statement a recognized-but-untranslatable
construct: an unconverted anonymous-function keyword, or a control-flow
identifier absent from the rule table. -/
def isUnsupportedTok (t : Token) : Bool :=
  (t.kind == .keyword && t.text == fnText) ||
  (t.kind == .identifier && ctrlTexts.contains t.text)

/-- First unsupported construct of a statement, if any (its text names the
category in the warning marker). -/
def unsupportedCat (ts : List Token) : Option (List Char) :=
  (ts.find? isUnsupportedTok).map Token.text

/-- The warning marker line attached before an unsupported statement. -/
def warnMarker (cat : List Char) : List Char :=
  "# UNSUPPORTED: ".toList ++ cat ++ ['\n']

/-- Parameter run of an anonymous-function literal: identifiers, commas
and whitespace up to the closing parenthesis. -/
def takeParams : List Token → Option (List Token × List Token)
  | [] => none
  | t :: rest =>
    if t.text = [')'] then some ([], rest)
    else if t.kind == .identifier || t.text = [','] || isWsTok t then
      (takeParams rest).map (fun pr => (t :: pr.1, pr.2))
    else none

/-- Single-return-expression body: tokens up to (excluding) the first
terminator or closing brace at the callback's own depth. The stopping
token is left at the head of the remainder. -/
def takeExpr : List Token → Nat → Option (List Token × List Token)
  | [], _ => none
  | t :: rest, d =>
    if isOpenTok t then (takeExpr rest (d + 1)).map (fun pr => (t :: pr.1, pr.2))
    else if isCloseTok t then
      if d = 0 then
        if t.text = ['\x7d'] then some ([], t :: rest) else none
      else (takeExpr rest (d - 1)).map (fun pr => (t :: pr.1, pr.2))
    else if isSemiTok t && d = 0 then some ([], t :: rest)
    else (takeExpr rest d).map (fun pr => (t :: pr.1, pr.2))

/-- Modelled from the spec: recognize an anonymous-function literal whose
body is a single return expression — `function (params) { return expr; }`
(the terminator optional) — returning the trimmed parameters, the trimmed
body expression, and the tokens following the closing brace. Any other
body shape is rejected (`none`). -/
def parseFunLit (ts : List Token) : Option (List Token × List Token × List Token) :=
  match ts with
  | f :: r0 =>
    if f.kind == .keyword && f.text == fnText then
      match skipWs r0 with
      | lp :: r1 =>
        if lp.text = ['('] then
          match takeParams r1 with
          | some (ps, r2) =>
            match skipWs r2 with
            | lb :: r3 =>
              if lb.text = ['\x7b'] then
                match skipWs r3 with
                | rt :: r4 =>
                  if rt.kind == .keyword && rt.text == retText then
                    match takeExpr r4 0 with
                    | some (e, stop :: r5) =>
                      if trimWs e = [] then none
                      else if isSemiTok stop then
                        match skipWs r5 with
                        | rb :: r6 =>
                          if rb.text = ['\x7d'] then some (trimWs ps, trimWs e, r6)
                          else none
                        | [] => none
                      else some (trimWs ps, trimWs e, r5)
                    | _ => none
                  else none
                | [] => none
              else none
            | [] => none
          | none => none
        else none
      | [] => none
    else none
  | [] => none

def mkId (s : List Char) : Token := ⟨.identifier, s, 0⟩

def mkWsTok : Token := ⟨.whitespace, [' '], 0⟩

def mkPunct (c : Char) : Token := ⟨.punctuation, [c], 0⟩

/-- Target-dialect inline-function form for a converted callback. -/
def lambdaToks (ps e : List Token) : List Token :=
  mkId "lambda".toList ::
    (if ps.isEmpty then [] else mkWsTok :: ps) ++ (mkPunct ':' :: mkWsTok :: e)

/-- One pass of anonymous-callback conversion (with fuel): an
anonymous-function literal appearing as the sole argument of a designated
higher-order member call, with a single-return-expression body, becomes
the target dialect's inline-function form; everything else is copied. -/
def lambdaGo : Nat → List Token → List Token
  | 0, ts => ts
  | _ + 1, [] => []
  | fuel + 1, d :: rest0 =>
    match rest0 with
    | m :: lp :: rest =>
      if d.text = ['.'] && hoTexts.contains m.text && lp.text = ['('] then
        match parseFunLit (skipWs rest) with
        | some (ps, e, rest') =>
          match skipWs rest' with
          | rp :: rest'' =>
            if rp.text = [')'] then
              d :: m :: lp :: (lambdaToks ps e ++ rp :: lambdaGo fuel rest'')
            else d :: lambdaGo fuel rest0
          | [] => d :: lambdaGo fuel rest0
        | none => d :: lambdaGo fuel rest0
      else d :: lambdaGo fuel rest0
    | _ => d :: lambdaGo fuel rest0

def lambdaRewrite (ts : List Token) : List Token := lambdaGo ts.length ts

/-- Modelled from the spec (rule table): a declaration-introducer keyword
at the start of a statement is dropped (with one following whitespace
token), keeping the assignment that follows. -/
def dropDecl : List Token → List Token
  | [] => []
  | t :: rest =>
    if isWsTok t then t :: dropDecl rest
    else if t.kind == .keyword && declTexts.contains t.text then
      match rest with
      | w :: rest' => if isWsTok w then rest' else rest
      | [] => []
    else t :: rest

/-- Modelled from the spec (rule table): statement terminators at zero
bracket depth are dropped; the boundary is conveyed by a newline in the
output instead. -/
def dropTerm : List Token → Nat → List Token
  | [], _ => []
  | t :: rest, d =>
    if isOpenTok t then t :: dropTerm rest (d + 1)
    else if isCloseTok t then t :: dropTerm rest (d - 1)
    else if isSemiTok t && d = 0 then dropTerm rest d
    else t :: dropTerm rest d

def isSigTok (t : Token) : Bool := !(isWsTok t || isCommentTok t)

/-- An opening brace begins an object-literal context exactly when the
previous significant token can precede an expression. -/
def isLitCtx (prev : Option (List Char)) : Bool :=
  prev == some ['('] || prev == some [','] || prev == some ['='] ||
  prev == some ['['] || prev == some [':'] || prev == some retText

def nextSigIs (ts : List Token) (s : List Char) : Bool :=
  match ts.dropWhile (fun t => !isSigTok t) with
  | t :: _ => t.text = s
  | [] => false

def quoteTok (t : Token) : Token :=
  ⟨.string, '\'' :: t.text ++ ['\''], t.pos⟩

/-- Modelled from the spec: the rule-table / literal-reformatter scan over
one statement. Tracks the previous significant token text and a stack of
flags marking whether each open bracket is an object literal. Bare object
keys are requoted as string keys; allow-listed member calls are renamed at
the call site; literal spellings that differ between dialects are renamed;
everything else passes through unchanged. -/
def rwStep : List Token → Option (List Char) → List Bool → List Token
  | [], _, _ => []
  | t :: rest, prev, stk =>
    if t.text = ['\x7b'] then
      t :: rwStep rest (some t.text) (isLitCtx prev :: stk)
    else if t.text = ['('] || t.text = ['['] then
      t :: rwStep rest (some t.text) (false :: stk)
    else if isCloseTok t then
      t :: rwStep rest (some t.text) stk.tail
    else if t.kind == .identifier && stk.headD false &&
        (prev == some ['\x7b'] || prev == some [',']) && nextSigIs rest [':'] then
      quoteTok t :: rwStep rest (some (quoteTok t).text) stk
    else if t.kind == .identifier && prev == some ['.'] && nextSigIs rest ['('] then
      ⟨t.kind, renameMember t.text, t.pos⟩ :: rwStep rest (some (renameMember t.text)) stk
    else if t.kind == .keyword && jsLitTexts.contains t.text then
      ⟨t.kind, pyLit t.text, t.pos⟩ :: rwStep rest (some (pyLit t.text)) stk
    else
      t :: rwStep rest (if isSigTok t then some t.text else prev) stk

/-- Checker mirroring `rwStep`: true iff no bare object key would be
requoted anywhere in the statement. -/
def chkStep : List Token → Option (List Char) → List Bool → Bool
  | [], _, _ => true
  | t :: rest, prev, stk =>
    if t.text = ['\x7b'] then
      chkStep rest (some t.text) (isLitCtx prev :: stk)
    else if t.text = ['('] || t.text = ['['] then
      chkStep rest (some t.text) (false :: stk)
    else if isCloseTok t then
      chkStep rest (some t.text) stk.tail
    else if t.kind == .identifier && stk.headD false &&
        (prev == some ['\x7b'] || prev == some [',']) && nextSigIs rest [':'] then
      false
    else if t.kind == .identifier && prev == some ['.'] && nextSigIs rest ['('] then
      chkStep rest (some (renameMember t.text)) stk
    else if t.kind == .keyword && jsLitTexts.contains t.text then
      chkStep rest (some (pyLit t.text)) stk
    else
      chkStep rest (if isSigTok t then some t.text else prev) stk

/-- Modelled from the spec (emitter): a newline retained inside a logical
statement (a source-dialect chain continuation) is re-emitted with the
target dialect's backslash continuation convention; newlines nested inside
brackets stay as they are. -/
def emitCont : List Token → Nat → List Token
  | [], _ => []
  | t :: rest, d =>
    if isOpenTok t then t :: emitCont rest (d + 1)
    else if isCloseTok t then t :: emitCont rest (d - 1)
    else if isNLTok t && d = 0 then
      ⟨.whitespace, [' ', '\\', '\n'], t.pos⟩ :: emitCont rest d
    else t :: emitCont rest d

/-- Checker mirroring `emitCont`: true iff the statement holds no
depth-zero newline (no chain continuation to re-wrap). -/
def contFree : List Token → Nat → Bool
  | [], _ => true
  | t :: rest, d =>
    if isOpenTok t then contFree rest (d + 1)
    else if isCloseTok t then contFree rest (d - 1)
    else if isNLTok t && d = 0 then false
    else contFree rest d

/-- Modelled from the spec: rewrite one Statement. A statement containing
a construct absent from the rule table is emitted byte-identical behind a
warning marker line; otherwise callbacks are converted, the declaration
keyword and terminator are dropped, the rule table and literal reformatter
are applied, and chain newlines get the target continuation convention. -/
def rewriteStmt (st : List Token) : List Char :=
  let st' := lambdaRewrite st
  match unsupportedCat st' with
  | some cat => warnMarker cat ++ textOf st
  | none => textOf (emitCont (rwStep (dropTerm (dropDecl st') 0) none []) 0)

/-- Output text contributed by a statement boundary: terminators are
dropped and conveyed as newlines; end of input contributes nothing. -/
def boundText : Bound → List Char
  | .nl => ['\n']
  | .semi => ['\n']
  | .semiEof => []
  | .eof => []

/-- Modelled from the spec: the Emitter. Reassembles the rewritten
statements in input order — never reordering — separated by their
boundary newlines. -/
def emit (ss : List Statement) : List Char :=
  (ss.map (fun pr => rewriteStmt pr.1 ++ boundText pr.2)).flatten

/-- The whole pipeline over characters: Tokenizer, then Statement
grouping, then per-statement rewriting and emission. -/
def translateChars (cs : List Char) : Except TransErr (List Char) :=
  match tokenize 0 cs with
  | .error e => .error e
  | .ok ts =>
    match group cs.length ts with
    | .error e => .error e
    | .ok ss => .ok (emit ss)

/-- Modelled from the spec: the single external operation
`translate(snippet: text) -> text`; fatal syntax errors are propagated as
a distinct failure value with no output text. -/
def translate (s : String) : Except TransErr String :=
  (translateChars s.data).map List.asString

/-- The repository's public name for the translate operation
(`gmp.js_snippet_to_python`): one string argument in, plain string of
target-dialect code out (the `Except` layer models Python exception
propagation of fatal errors). -/
def js_snippet_to_python (s : String) : Except TransErr String := translate s

/-! ## Already-target text -/

/-- A token of already-target text: not one of the source dialect's
keywords, not an unsupported-construct name, not a statement terminator,
and not an allow-listed rename candidate. -/
def tokOk (t : Token) : Bool :=
  !(t.kind == .keyword) && !(isUnsupportedTok t) && !(isSemiTok t) &&
  !(t.text == "addLayer".toList)

/-- A snippet containing no source-dialect-only constructs, within the
supported grammar subset: it tokenizes and groups cleanly, every token is
already target-dialect vocabulary, no object literal has a bare key to
requote, and no statement uses the source dialect's chain-continuation
line breaks. -/
def sourceFree (s : String) : Bool :=
  match tokenize 0 s.data with
  | .error _ => false
  | .ok ts =>
    ts.all tokOk &&
    match group s.data.length ts with
    | .error _ => false
    | .ok ss => ss.all (fun pr => chkStep pr.1 none [] && contFree pr.1 0)

/-! ## Helper lemmas -/

theorem textOf_nil : textOf [] = [] := rfl

theorem textOf_cons (t : Token) (ts : List Token) :
    textOf (t :: ts) = t.text ++ textOf ts := by
  simp [textOf]

theorem textOf_append (a b : List Token) :
    textOf (a ++ b) = textOf a ++ textOf b := by
  simp [textOf]

theorem isNLTok_text (t : Token) (h : isNLTok t = true) : t.text = ['\n'] := by
  simp [isNLTok] at h
  exact h.2

/-- Rule-table passthrough: member names outside the rename allow-list are
left unchanged. -/
theorem renameMember_id (s : List Char) (h : s ≠ "addLayer".toList) :
    renameMember s = s := by
  simp only [renameMember]
  rw [if_neg h]

theorem lambdaGo_id (fuel : Nat) :
    ∀ ts, (∀ t ∈ ts, tokOk t = true) → lambdaGo fuel ts = ts := by
  induction fuel with
  | zero => intro ts _; rfl
  | succ fuel ih =>
    intro ts hok
    match ts with
    | [] => rfl
    | d :: rest0 =>
      have hrest0 : ∀ t ∈ rest0, tokOk t = true :=
        fun t ht => hok t (List.mem_cons_of_mem d ht)
      match rest0, hrest0 with
      | [], _ =>
        show lambdaGo (fuel + 1) [d] = [d]
        simp only [lambdaGo]
        rw [ih [] (by simp)]
      | [m], hrest1 =>
        show lambdaGo (fuel + 1) [d, m] = [d, m]
        simp only [lambdaGo]
        rw [ih [m] hrest1]
      | m :: lp :: rest, hrest1 =>
        have hrest : ∀ t ∈ rest, tokOk t = true :=
          fun t ht => hrest1 t (List.mem_cons_of_mem m (List.mem_cons_of_mem lp ht))

        simp only [lambdaGo]
        by_cases hc : (d.text = ['.'] && hoTexts.contains m.text && lp.text = ['(']) = true

        · rw [if_pos hc]
          have hfun : parseFunLit (skipWs rest) = none := by
            have hsub : ∀ t ∈ skipWs rest, tokOk t = true := by
              intro t ht
              exact hrest t ((List.dropWhile_sublist _).subset ht)
            cases hsw : skipWs rest with
            | nil => rfl
            | cons f r0 =>
              have hf := hsub f (by rw [hsw]; simp)
              rw [parseFunLit]
              have hnk : ¬(f.kind == TokenKind.keyword && f.text == fnText) = true := by
                simp only [Bool.and_eq_true, beq_iff_eq]
                rintro ⟨hk, -⟩
                simp [tokOk, hk] at hf
              rw [if_neg hnk]
          rw [hfun, ih _ hrest1]
        · rw [if_neg hc, ih _ hrest1]

theorem lambdaRewrite_id (ts : List Token) (hok : ∀ t ∈ ts, tokOk t = true) :
    lambdaRewrite ts = ts :=
  lambdaGo_id ts.length ts hok

theorem dropDecl_id (ts : List Token) (hok : ∀ t ∈ ts, tokOk t = true) :
    dropDecl ts = ts := by
  induction ts with
  | nil => rfl
  | cons t rest ih =>
    have ht := hok t (List.mem_cons_self t rest)
    have hrest := fun u hu => hok u (List.mem_cons_of_mem t hu)
    by_cases h1 : isWsTok t = true
    · simp only [dropDecl, h1, if_true]
      rw [ih hrest]
    · have h2 : ¬(t.kind == TokenKind.keyword && declTexts.contains t.text) = true := by
        simp only [Bool.and_eq_true, beq_iff_eq]
        rintro ⟨hk, -⟩
        simp [tokOk, hk] at ht
      simp only [dropDecl, h1, if_false, Bool.false_eq_true]
      rw [if_neg h2]

theorem dropTerm_id (ts : List Token) (hok : ∀ t ∈ ts, tokOk t = true) :
    ∀ d, dropTerm ts d = ts := by
  induction ts with
  | nil => intro d; rfl
  | cons t rest ih =>
    intro d
    have ht := hok t (List.mem_cons_self t rest)
    have hrest := fun u hu => hok u (List.mem_cons_of_mem t hu)
    have hsemi : isSemiTok t = false := by
      cases hx : isSemiTok t
      · rfl
      · simp [tokOk, hx] at ht
    simp only [dropTerm, hsemi, Bool.false_and, Bool.false_eq_true, if_false]
    by_cases h1 : isOpenTok t = true
    · rw [if_pos h1, ih hrest]
    · rw [if_neg h1]
      by_cases h2 : isCloseTok t = true
      · rw [if_pos h2, ih hrest]
      · rw [if_neg h2, ih hrest]

theorem contFree_id (ts : List Token) :
    ∀ d, contFree ts d = true → emitCont ts d = ts := by
  induction ts with
  | nil => intro d _; rfl
  | cons t rest ih =>
    intro d h
    by_cases h1 : isOpenTok t = true
    · simp only [contFree, h1, if_true] at h
      simp only [emitCont, h1, if_true]
      rw [ih _ h]
    · by_cases h2 : isCloseTok t = true
      · simp only [contFree, h1, h2, if_true, if_false, Bool.false_eq_true] at h
        simp only [emitCont, h1, h2, if_true, if_false, Bool.false_eq_true]
        rw [ih _ h]
      · by_cases h3 : (isNLTok t && decide (d = 0)) = true
        · simp only [contFree, h1, h2, h3, if_true, if_false, Bool.false_eq_true] at h
        · simp only [contFree, h1, h2, h3, if_false, Bool.false_eq_true] at h
          simp only [emitCont, h1, h2, h3, if_false, Bool.false_eq_true]
          rw [ih _ h]

theorem chkStep_id (ts : List Token) :
    ∀ prev stk, (∀ t ∈ ts, tokOk t = true) → chkStep ts prev stk = true →
      rwStep ts prev stk = ts := by
  induction ts with
  | nil => intro prev stk _ _; rfl
  | cons t rest ih =>
    intro prev stk hok hchk
    have ht := hok t (List.mem_cons_self t rest)
    have hrest := fun u hu => hok u (List.mem_cons_of_mem t hu)
    by_cases h1 : t.text = ['\x7b']
    · simp only [chkStep, h1, if_pos] at hchk
      simp only [rwStep, h1, if_pos]
      rw [ih _ _ hrest hchk]
    · rw [chkStep] at hchk
      rw [rwStep]
      rw [if_neg h1] at hchk ⊢
      by_cases h2 : (t.text = ['('] || t.text = ['[']) = true
      · rw [if_pos h2] at hchk ⊢
        rw [ih _ _ hrest hchk]
      · rw [if_neg h2] at hchk ⊢
        by_cases h3 : isCloseTok t = true
        · rw [if_pos h3] at hchk ⊢
          rw [ih _ _ hrest hchk]
        · rw [if_neg h3] at hchk ⊢
          by_cases h4 : (t.kind == TokenKind.identifier && stk.headD false &&
              (prev == some ['\x7b'] || prev == some [',']) && nextSigIs rest [':']) = true
          · rw [if_pos h4] at hchk
            cases hchk
          · rw [if_neg h4] at hchk ⊢
            by_cases h5 : (t.kind == TokenKind.identifier && prev == some ['.'] &&
                nextSigIs rest ['(']) = true
            · rw [if_pos h5] at hchk ⊢
              have hren : renameMember t.text = t.text := by
                apply renameMember_id
                intro hx
                simp [tokOk, hx] at ht
              rw [hren] at hchk ⊢
              rw [ih _ _ hrest hchk]
            · rw [if_neg h5] at hchk ⊢
              have h6 : ¬(t.kind == TokenKind.keyword && jsLitTexts.contains t.text) = true := by
                simp only [Bool.and_eq_true, beq_iff_eq]
                rintro ⟨hk, -⟩
                simp [tokOk, hk] at ht
              rw [if_neg h6] at hchk ⊢
              rw [ih _ _ hrest hchk]

/-- Structural facts about grouping on terminator-free token runs: the
statements' texts joined with their boundary newlines reconstruct the
token run exactly; every boundary is a newline or end-of-input; and every
statement token comes from the input run or the open accumulator. -/
theorem groupGo_recon (endPos : Nat) :
    ∀ fuel ts d cur ss, 2 * ts.length + 1 ≤ fuel →
      (∀ t ∈ ts, isSemiTok t = false) →
      groupGo endPos fuel ts d cur false = .ok ss →
      ((ss.map fun pr => textOf pr.1 ++ boundText pr.2).flatten
          = textOf cur.reverse ++ textOf ts)
      ∧ (∀ pr ∈ ss, pr.2 = Bound.nl ∨ pr.2 = Bound.eof)
      ∧ (∀ pr ∈ ss, ∀ x ∈ pr.1, x ∈ ts ∨ x ∈ cur) := by
  intro fuel
  induction fuel with
  | zero =>
    intro ts d cur ss hf
    omega
  | succ fuel ih =>
    intro ts d cur ss hf hsemi h
    match ts with
    | [] =>
      simp only [groupGo] at h
      split at h
      · cases h
      · by_cases hcur : cur.isEmpty = true
        · rw [if_pos hcur] at h
          cases h
          have : cur = [] := by simpa [List.isEmpty_iff] using hcur
          subst this
          simp [textOf]
        · rw [if_neg hcur] at h
          cases h
          refine ⟨by simp [boundText, textOf], by simp, ?_⟩
          intro pr hpr x hx
          simp only [List.mem_singleton] at hpr
          subst hpr
          simp only [List.mem_reverse] at hx
          exact Or.inr hx
    | t :: rest =>
      have hsr : ∀ u ∈ rest, isSemiTok u = false :=
        fun u hu => hsemi u (List.mem_cons_of_mem t hu)
      have hfr : 2 * rest.length + 1 ≤ fuel := by
        simp only [List.length_cons] at hf
        omega
      have hst : isSemiTok t = false := hsemi t (List.mem_cons_self t rest)
      simp only [groupGo, hst, Bool.false_and, Bool.false_eq_true, if_false] at h
      have absorb : ∀ d' ss', groupGo endPos fuel rest d' (t :: cur) false = .ok ss' →
          ((ss'.map fun pr => textOf pr.1 ++ boundText pr.2).flatten
              = textOf cur.reverse ++ textOf (t :: rest))
          ∧ (∀ pr ∈ ss', pr.2 = Bound.nl ∨ pr.2 = Bound.eof)
          ∧ (∀ pr ∈ ss', ∀ x ∈ pr.1, x ∈ t :: rest ∨ x ∈ cur) := by
        intro d' ss' h'
        obtain ⟨h1, h2, h3⟩ := ih rest d' (t :: cur) ss' hfr hsr h'
        refine ⟨?_, h2, ?_⟩
        · rw [h1, List.reverse_cons, textOf_append, textOf_cons, textOf_cons,
            textOf_nil, List.append_assoc]
          simp
        · intro pr hpr x hx
          rcases h3 pr hpr x hx with hx1 | hx1
          · exact Or.inl (List.mem_cons_of_mem t hx1)
          · rcases List.mem_cons.mp hx1 with rfl | hx2
            · exact Or.inl (List.mem_cons_self x rest)
            · exact Or.inr hx2
      by_cases c1 : isOpenTok t = true
      · rw [if_pos c1] at h
        exact absorb _ _ h
      · rw [if_neg c1] at h
        by_cases c2 : isCloseTok t = true
        · rw [if_pos c2] at h
          by_cases cd : d = 0
          · rw [if_pos cd] at h
            cases h
          · rw [if_neg cd] at h
            exact absorb _ _ h
        · rw [if_neg c2] at h
          by_cases c4 : (isNLTok t && decide (d = 0)) = true
          · rw [if_pos c4] at h
            by_cases c5 : nextIsDot rest = true
            · rw [if_pos c5] at h
              exact absorb _ _ h
            · rw [if_neg c5] at h
              cases hrec : groupGo endPos fuel rest 0 [] false with
              | error e => rw [hrec] at h; cases h
              | ok ss' =>
                rw [hrec] at h
                simp only [Except.map, Except.ok.injEq] at h
                subst h
                obtain ⟨h1, h2, h3⟩ := ih rest 0 [] ss' hfr hsr hrec
                have htxt : t.text = ['\n'] := by
                  simp only [Bool.and_eq_true] at c4
                  exact isNLTok_text t c4.1
                refine ⟨?_, ?_, ?_⟩
                · simp only [List.map_cons, List.flatten_cons]
                  rw [h1]
                  simp [boundText, textOf_cons, textOf_nil, htxt]
                · intro pr hpr
                  rcases List.mem_cons.mp hpr with rfl | hpr2
                  · exact Or.inl rfl
                  · exact h2 pr hpr2
                · intro pr hpr x hx
                  rcases List.mem_cons.mp hpr with rfl | hpr2
                  · simp only [List.mem_reverse] at hx
                    exact Or.inr hx
                  · rcases h3 pr hpr2 x hx with hx1 | hx1
                    · exact Or.inl (List.mem_cons_of_mem t hx1)
                    · cases hx1
          · rw [if_neg c4] at h
            exact absorb _ _ h

theorem take_takeWhile (l : List Char) (p : Char → Bool) :
    l.take (l.takeWhile p).length = l.takeWhile p := by
  obtain ⟨t, ht⟩ := List.takeWhile_prefix p (l := l)
  set tw := l.takeWhile p
  rw [← ht]
  exact List.take_left _ _

theorem unsupportedCat_none (ts : List Token) (hok : ∀ t ∈ ts, tokOk t = true) :
    unsupportedCat ts = none := by
  have : ts.find? isUnsupportedTok = none := by
    rw [List.find?_eq_none]
    intro t ht
    have h := hok t ht
    cases hx : isUnsupportedTok t
    · simp
    · simp [tokOk, hx] at h
  simp [unsupportedCat, this]

/-- A statement of already-target tokens is rewritten to exactly its own
text. -/
theorem rewriteStmt_id (st : List Token) (hok : ∀ t ∈ st, tokOk t = true)
    (hchk : chkStep st none [] = true) (hcont : contFree st 0 = true) :
    rewriteStmt st = textOf st := by
  rw [rewriteStmt, lambdaRewrite_id st hok, unsupportedCat_none st hok,
    dropDecl_id st hok, dropTerm_id st hok 0, chkStep_id st none [] hok hchk,
    contFree_id st 0 hcont]

/-- Unsupported-construct containment: a statement still holding an
unsupported construct after callback conversion is emitted byte-identical
behind the warning marker naming its category. -/
theorem rewriteStmt_flagged (st : List Token) (cat : List Char)
    (h : unsupportedCat (lambdaRewrite st) = some cat) :
    rewriteStmt st = warnMarker cat ++ textOf st := by
  rw [rewriteStmt, h]

/-- The translate pipeline in emitter shape: on accepted input the result
is exactly the in-order emission of the grouped statements. -/
theorem translate_shape (s : String) (ts : List Token) (ss : List Statement)
    (h1 : tokenize 0 s.data = .ok ts) (h2 : group s.data.length ts = .ok ss) :
    translate s = .ok (emit ss).asString := by
  rw [translate, translateChars, h1]
  simp only [h2, Except.map]

/-- Fatal tokenizer errors propagate: no output text is produced. -/
theorem translate_tokErr (s : String) (e : TransErr)
    (h : tokenize 0 s.data = .error e) : translate s = .error e := by
  rw [translate, translateChars, h]
  simp only [Except.map]

/-- Fatal grouping errors (unbalanced brackets) propagate: no output text
is produced. -/
theorem translate_groupErr (s : String) (ts : List Token) (e : TransErr)
    (h1 : tokenize 0 s.data = .ok ts) (h2 : group s.data.length ts = .error e) :
    translate s = .error e := by
  rw [translate, translateChars, h1]
  simp only [h2, Except.map]

/-! ## Further checkers used by the claims -/

/-- True iff the token run has no terminator at its own top depth,
starting from depth `d`. -/
def noTopSemi : List Token → Nat → Bool
  | [], _ => true
  | t :: rest, d =>
    if isOpenTok t then noTopSemi rest (d + 1)
    else if isCloseTok t then noTopSemi rest (d - 1)
    else if isSemiTok t && d = 0 then false
    else noTopSemi rest d

/-- Bracket depth after scanning the run, starting from depth `d`. -/
def endDepth : List Token → Nat → Nat
  | [], d => d
  | t :: rest, d =>
    if isOpenTok t then endDepth rest (d + 1)
    else if isCloseTok t then endDepth rest (d - 1)
    else endDepth rest d

/-- A well-formed single logical statement under the source dialect's
continuation convention: brackets balanced and never negative, no
top-level terminator, and every zero-depth line break continued by a
chain dot on the next line. -/
def chainOk : List Token → Nat → Bool
  | [], d => d = 0
  | t :: rest, d =>
    if isOpenTok t then chainOk rest (d + 1)
    else if isCloseTok t then decide (0 < d) && chainOk rest (d - 1)
    else if isSemiTok t && d = 0 then false
    else if isNLTok t && d = 0 then nextIsDot rest && chainOk rest d
    else chainOk rest d

/-- A callback body expression consumable as a single return expression:
brackets balanced and never negative, and no terminator or closing brace
at the body's own depth. -/
def exprOk : List Token → Nat → Bool
  | [], d => d = 0
  | t :: rest, d =>
    if isOpenTok t then exprOk rest (d + 1)
    else if isCloseTok t then decide (0 < d) && exprOk rest (d - 1)
    else if isSemiTok t && d = 0 then false
    else exprOk rest d

theorem isSemiTok_text (t : Token) (h : isSemiTok t = true) : t.text = [';'] := by
  simpa [isSemiTok] using h

theorem semi_not_open (t : Token) (h : isSemiTok t = true) : isOpenTok t = false := by
  rw [isOpenTok, isSemiTok_text t h]
  decide

theorem semi_not_close (t : Token) (h : isSemiTok t = true) : isCloseTok t = false := by
  rw [isCloseTok, isSemiTok_text t h]
  decide

/-- Dropping the statement terminator: appending a top-level terminator to
a terminator-free balanced run and then dropping terminators returns the
run unchanged. -/
theorem dropTerm_append (s : Token) (hs : isSemiTok s = true) :
    ∀ ts d, noTopSemi ts d = true → endDepth ts d = 0 →
      dropTerm (ts ++ [s]) d = ts := by
  intro ts
  induction ts with
  | nil =>
    intro d h1 h2
    simp only [endDepth] at h2
    subst h2
    simp [dropTerm, semi_not_open s hs, semi_not_close s hs, hs]
  | cons t rest ih =>
    intro d h1 h2
    simp only [noTopSemi] at h1
    simp only [endDepth] at h2
    simp only [List.cons_append, dropTerm]
    by_cases c1 : isOpenTok t = true
    · rw [if_pos c1] at h1 h2 ⊢
      exact congrArg (t :: ·) (ih _ h1 h2)
    · rw [if_neg c1] at h1 h2 ⊢
      by_cases c2 : isCloseTok t = true
      · rw [if_pos c2] at h1 h2 ⊢
        exact congrArg (t :: ·) (ih _ h1 h2)
      · rw [if_neg c2] at h1 h2 ⊢
        by_cases c3 : (isSemiTok t && decide (d = 0)) = true
        · rw [if_pos c3] at h1
          cases h1
        · rw [if_neg c3] at h1 ⊢
          exact congrArg (t :: ·) (ih _ h1 h2)

/-- Declaration stripping at the statement head: the declaration keyword
and its following whitespace are removed and the rest kept verbatim. -/
theorem dropDecl_strip (k w : Token) (rest : List Token)
    (hk1 : k.kind = .keyword) (hk2 : declTexts.contains k.text = true)
    (hw : isWsTok w = true) :
    dropDecl (k :: w :: rest) = rest := by
  have hkw : isWsTok k = false := by rw [isWsTok, hk1]
  have hk2' : k.text ∈ declTexts := by simpa using hk2
  simp [dropDecl, hkw, hk1, hk2', hw]

/-- A chain-continued run groups into exactly one logical statement. -/
theorem groupGo_single (endPos : Nat) :
    ∀ fuel ts d cur, 2 * ts.length + 1 ≤ fuel → chainOk ts d = true →
      (cur ≠ [] ∨ ts ≠ []) →
      groupGo endPos fuel ts d cur false = .ok [(cur.reverse ++ ts, .eof)] := by
  intro fuel
  induction fuel with
  | zero =>
    intro ts d cur hf
    omega
  | succ fuel ih =>
    intro ts d cur hf hch hne
    match ts with
    | [] =>
      simp only [chainOk, decide_eq_true_eq] at hch
      subst hch
      have hcur : cur ≠ [] := by
        rcases hne with h | h
        · exact h
        · cases h rfl
      simp [groupGo, List.isEmpty_iff, hcur]
    | t :: rest =>
      have hfr : 2 * rest.length + 1 ≤ fuel := by
        simp only [List.length_cons] at hf
        omega
      simp only [chainOk] at hch
      simp only [groupGo]
      by_cases c1 : isOpenTok t = true
      · rw [if_pos c1] at hch ⊢
        rw [ih rest (d + 1) (t :: cur) hfr hch (Or.inl (by simp))]
        simp
      · rw [if_neg c1] at hch ⊢
        by_cases c2 : isCloseTok t = true
        · rw [if_pos c2] at hch ⊢
          simp only [Bool.and_eq_true, decide_eq_true_eq] at hch
          rw [if_neg (by omega)]
          rw [ih rest (d - 1) (t :: cur) hfr hch.2 (Or.inl (by simp))]
          simp
        · rw [if_neg c2] at hch ⊢
          by_cases c3 : (isSemiTok t && decide (d = 0)) = true
          · rw [if_pos c3] at hch
            cases hch
          · rw [if_neg c3] at hch ⊢
            by_cases c4 : (isNLTok t && decide (d = 0)) = true
            · rw [if_pos c4] at hch ⊢
              simp only [Bool.and_eq_true] at hch
              rw [if_pos hch.1]
              rw [ih rest d (t :: cur) hfr hch.2 (Or.inl (by simp))]
              simp
            · rw [if_neg c4] at hch ⊢
              rw [ih rest d (t :: cur) hfr hch (Or.inl (by simp))]
              simp

theorem isIdentChar_ne_nl (c : Char) (h : isIdentChar c = true) : c ≠ '\n' := by
  rintro rfl
  exact absurd h (by decide)

theorem isDigit_ne_nl (c : Char) (h : c.isDigit = true) : c ≠ '\n' := by
  rintro rfl
  exact absurd h (by decide)

theorem isSpaceChar_ne_nl (c : Char) (h : isSpaceChar c = true) : c ≠ '\n' := by
  rintro rfl
  exact absurd h (by decide)

/-- Token shape: outside opaque comment and string tokens, a token is
either exactly a newline or newline-free, so every output line break falls
on a token boundary — re-emission never splits mid-token. -/
theorem scanTok_nl (p : Nat) (c : Char) (cs : List Char) (k : TokenKind) (e : Nat)
    (h : scanTok p c cs = .ok (k, e)) :
    k = .comment ∨ k = .string ∨ c :: cs.take e = ['\n'] ∨ '\n' ∉ c :: cs.take e := by
  have digits_take : c.isDigit = true →
      '\n' ∉ c :: cs.take (cs.takeWhile Char.isDigit).length := by
    intro b5
    rw [take_takeWhile]
    intro hmem
    rcases List.mem_cons.mp hmem with heq | hmem2
    · subst heq
      exact absurd b5 (by decide)
    · exact isDigit_ne_nl _ (List.mem_takeWhile_imp hmem2) rfl
  unfold scanTok at h
  split at h
  · -- string
    split at h
    · simp only [Except.ok.injEq, Prod.mk.injEq] at h
      exact Or.inr (Or.inl h.1.symm)
    · cases h
  · split at h
    · -- line comment
      simp only [Except.ok.injEq, Prod.mk.injEq] at h
      exact Or.inl h.1.symm
    · split at h
      · -- block comment
        split at h
        · split at h
          · simp only [Except.ok.injEq, Prod.mk.injEq] at h
            exact Or.inl h.1.symm
          · cases h
        · cases h
      · split at h
        · -- identifier / keyword
          rename_i b4
          simp only [Except.ok.injEq, Prod.mk.injEq] at h
          obtain ⟨-, he⟩ := h
          subst he
          refine Or.inr (Or.inr (Or.inr ?_))
          rw [take_takeWhile]
          intro hmem
          rcases List.mem_cons.mp hmem with heq | hmem2
          · subst heq
            exact absurd b4 (by decide)
          · exact isIdentChar_ne_nl _ (List.mem_takeWhile_imp hmem2) rfl
        · split at h
          · -- number
            rename_i b5
            split at h
            · rename_i d r' hdw
              split at h
              · -- fractional part
                simp only [Except.ok.injEq, Prod.mk.injEq] at h
                obtain ⟨-, he⟩ := h
                subst he
                refine Or.inr (Or.inr (Or.inr ?_))
                have hw : cs.takeWhile Char.isDigit ++ cs.dropWhile Char.isDigit = cs :=
                  List.takeWhile_append_dropWhile _ _
                rw [hdw] at hw
                have htake :
                    cs.take ((cs.takeWhile Char.isDigit).length + 1 +
                        ((d :: r').takeWhile Char.isDigit).length) =
                      cs.takeWhile Char.isDigit ++ '.' :: (d :: r').takeWhile Char.isDigit := by
                  set tw := cs.takeWhile Char.isDigit
                  rw [show tw.length + 1 + ((d :: r').takeWhile Char.isDigit).length =
                      tw.length + (1 + ((d :: r').takeWhile Char.isDigit).length) by omega]
                  conv_lhs => rw [← hw]
                  rw [List.take_append]
                  congr 1
                  show ('.' :: (d :: r')).take (1 + ((d :: r').takeWhile Char.isDigit).length)
                      = '.' :: (d :: r').takeWhile Char.isDigit
                  rw [show (1 : Nat) + ((d :: r').takeWhile Char.isDigit).length =
                    ((d :: r').takeWhile Char.isDigit).length + 1 by omega]
                  rw [List.take_succ_cons, take_takeWhile]
                rw [htake]
                intro hmem
                rcases List.mem_cons.mp hmem with heq | hmem2
                · subst heq
                  exact absurd b5 (by decide)
                rcases List.mem_append.mp hmem2 with hmem3 | hmem3
                · exact isDigit_ne_nl _ (List.mem_takeWhile_imp hmem3) rfl
                rcases List.mem_cons.mp hmem3 with heq | hmem4
                · cases heq
                · exact isDigit_ne_nl _ (List.mem_takeWhile_imp hmem4) rfl
              · -- dot not followed by digit
                simp only [Except.ok.injEq, Prod.mk.injEq] at h
                obtain ⟨-, he⟩ := h
                subst he
                exact Or.inr (Or.inr (Or.inr (digits_take b5)))
            · -- no fractional part
              simp only [Except.ok.injEq, Prod.mk.injEq] at h
              obtain ⟨-, he⟩ := h
              subst he
              exact Or.inr (Or.inr (Or.inr (digits_take b5)))
          · split at h
            · -- whitespace run
              rename_i b7
              simp only [Except.ok.injEq, Prod.mk.injEq] at h
              obtain ⟨-, he⟩ := h
              subst he
              refine Or.inr (Or.inr (Or.inr ?_))
              rw [take_takeWhile]
              intro hmem
              rcases List.mem_cons.mp hmem with heq | hmem2
              · subst heq
                exact absurd b7 (by decide)
              · exact isSpaceChar_ne_nl _ (List.mem_takeWhile_imp hmem2) rfl
            · split at h
              · -- lone newline
                rename_i b8
                simp only [Except.ok.injEq, Prod.mk.injEq] at h
                obtain ⟨-, he⟩ := h
                subst he
                subst b8
                exact Or.inr (Or.inr (Or.inl rfl))
              · -- punctuation
                rename_i b8
                simp only [Except.ok.injEq, Prod.mk.injEq] at h
                obtain ⟨-, he⟩ := h
                subst he
                refine Or.inr (Or.inr (Or.inr ?_))
                simp only [List.take_zero, List.mem_singleton]
                intro hx
                exact b8 hx.symm

/-- Tokens outside comments and strings are exactly-newline or
newline-free. -/
theorem tokGo_nl (fuel : Nat) :
    ∀ p cs ts, tokGo fuel p cs = .ok ts →
      ∀ t ∈ ts, t.kind ≠ .comment → t.kind ≠ .string →
        t.text = ['\n'] ∨ '\n' ∉ t.text := by
  induction fuel with
  | zero =>
    intro p cs ts h
    cases cs with
    | nil =>
      simp [tokGo] at h
      simp [h]
    | cons c cs => simp [tokGo] at h
  | succ fuel ih =>
    intro p cs ts h
    match cs with
    | [] =>
      simp [tokGo] at h
      simp [h]
    | c :: cs =>
      rw [tokGo] at h
      match hscan : scanTok p c cs with
      | .error e => simp [hscan] at h
      | .ok (k, e) =>
        simp only [hscan] at h
        match hrec : tokGo fuel (p + 1 + e) (cs.drop e) with
        | .error err => simp [hrec] at h
        | .ok ts' =>
          simp only [hrec, Except.ok.injEq] at h
          subst h
          intro t ht hc hs
          rcases List.mem_cons.mp ht with rfl | ht2
          · rcases scanTok_nl p c cs k e hscan with hk | hk | hk | hk
            · exact absurd hk hc
            · exact absurd hk hs
            · exact Or.inl hk
            · exact Or.inr hk
          · exact ih (p + 1 + e) (cs.drop e) ts' hrec t ht2 hc hs

theorem trimWs_cons_ws (w : Token) (e : List Token) (hw : isWsTok w = true) :
    trimWs (w :: e) = trimWs e := by
  simp [trimWs, List.dropWhile_cons, hw]

theorem trimWs_id (e : List Token) (h1 : e.dropWhile isWsTok = e)
    (h2 : e.reverse.dropWhile isWsTok = e.reverse) : trimWs e = e := by
  rw [trimWs, h1, h2, List.reverse_reverse]

/-- The single-return body family: a balanced terminator-free expression
followed by the terminator is consumed exactly up to the terminator. -/
theorem takeExpr_append (s : Token) (hs : isSemiTok s = true) :
    ∀ e rest d, exprOk e d = true →
      takeExpr (e ++ s :: rest) d = some (e, s :: rest) := by
  intro e
  induction e with
  | nil =>
    intro rest d hok
    simp only [exprOk, decide_eq_true_eq] at hok
    subst hok
    simp only [List.nil_append, takeExpr, semi_not_open s hs, semi_not_close s hs,
      Bool.false_eq_true, if_false, hs]
    simp
  | cons t e ih =>
    intro rest d hok
    simp only [exprOk] at hok
    simp only [List.cons_append, takeExpr]
    by_cases c1 : isOpenTok t = true
    · rw [if_pos c1] at hok ⊢
      rw [show takeExpr (e.append (s :: rest)) (d + 1) = some (e, s :: rest) from
        ih rest (d + 1) hok]
      rfl
    · rw [if_neg c1] at hok ⊢
      by_cases c2 : isCloseTok t = true
      · rw [if_pos c2] at hok ⊢
        simp only [Bool.and_eq_true, decide_eq_true_eq] at hok
        rw [if_neg (by omega)]
        rw [show takeExpr (e.append (s :: rest)) (d - 1) = some (e, s :: rest) from
          ih rest (d - 1) hok.2]
        rfl
      · rw [if_neg c2] at hok ⊢
        by_cases c3 : (isSemiTok t && decide (d = 0)) = true
        · rw [if_pos c3] at hok
          cases hok
        · rw [if_neg c3] at hok ⊢
          rw [show takeExpr (e.append (s :: rest)) d = some (e, s :: rest) from
            ih rest d hok]
          rfl

/-- The shape of an anonymous-function literal whose body is a single
return expression, as the sole argument pattern the rewriter recognizes:
`function ( param ) \x7b return expr ; \x7d`. -/
def funLitToks (pTok : Token) (e rest : List Token) : List Token :=
  ⟨.keyword, fnText, 0⟩ :: mkPunct '(' :: pTok :: mkPunct ')' :: mkPunct '\x7b' ::
    ⟨.keyword, retText, 0⟩ :: mkWsTok :: e ++ mkPunct ';' :: mkPunct '\x7d' :: rest

theorem parseFunLit_family (pTok : Token) (e rest : List Token)
    (hp1 : pTok.kind = .identifier) (hp2 : pTok.text ≠ [')'])
    (he1 : exprOk e 0 = true) (he2 : trimWs e = e) (he3 : e ≠ []) :
    parseFunLit (funLitToks pTok e rest) = some ([pTok], e, rest) := by
  have hpw : isWsTok pTok = false := by rw [isWsTok, hp1]
  cases e with
  | nil => exact absurd rfl he3
  | cons e0 etl =>
  have hta := takeExpr_append (mkPunct ';') (by decide) (e0 :: etl)
    (mkPunct '\x7d' :: rest) 0 he1
  have hte : takeExpr (mkWsTok :: e0 :: (etl ++ mkPunct ';' :: mkPunct '\x7d' :: rest)) 0
      = some (mkWsTok :: e0 :: etl, mkPunct ';' :: mkPunct '\x7d' :: rest) := by
    rw [takeExpr]
    rw [if_neg (by decide), if_neg (by decide), if_neg (by decide)]
    rw [show takeExpr (e0 :: (etl ++ mkPunct ';' :: mkPunct '\x7d' :: rest)) 0
      = some (e0 :: etl, mkPunct ';' :: mkPunct '\x7d' :: rest) from hta]
    rfl
  have htrim : trimWs (mkWsTok :: e0 :: etl) = e0 :: etl := by
    rw [trimWs_cons_ws mkWsTok (e0 :: etl) (by decide), he2]
  rw [funLitToks]
  conv_lhs => whnf
  simp only [List.append_eq, List.cons_append]
  rw [takeParams]
  rw [if_neg hp2, if_pos (by simp [hp1])]
  conv_lhs => whnf
  rw [hte]
  conv_lhs => whnf
  rw [htrim]
  conv_lhs => whnf
  have htp : trimWs [pTok] = [pTok] := by
    simp [trimWs, List.dropWhile_cons, hpw]
  rw [htp]

/-! ## Claims -/

deriving instance DecidableEq for Except

/-- C1: `translate` applied to the single-statement snippet
`Map.addLayer(img, \x7bmin: -1, max: 1\x7d, 'NDVI');` returns exactly
`Map.add_ee_layer(img, \x7b'min': -1, 'max': 1\x7d, 'NDVI')`: the
allow-listed member call is renamed at the call site, bare object keys are
requoted as string keys, the terminator is dropped, and member-access
names outside the rename allow-list pass through unchanged. -/
theorem claim_C1 :
    translate "Map.addLayer(img, \x7bmin: -1, max: 1\x7d, 'NDVI');"
      = .ok "Map.add_ee_layer(img, \x7b'min': -1, 'max': 1\x7d, 'NDVI')"
    ∧ ∀ s : List Char, s ≠ "addLayer".toList → renameMember s = s :=
  ⟨by decide, fun s h => renameMember_id s h⟩

theorem claim_C1_witness :
    "filterBounds".toList ≠ "addLayer".toList ∧
      renameMember "filterBounds".toList = "filterBounds".toList :=
  ⟨by decide, claim_C1.2 "filterBounds".toList (by decide)⟩

/-- C2: for every supported declaration statement, `translate` removes the
declaration-introducer keyword and the statement terminator and keeps the
following `identifier = expression` as a plain assignment; in particular
`var x = 1;` translates to `x = 1` (and likewise for the other
declaration keywords). -/
theorem claim_C2 :
    (∀ (k w : Token) (rest : List Token), k.kind = .keyword →
      declTexts.contains k.text = true → isWsTok w = true →
      dropDecl (k :: w :: rest) = rest)
    ∧ (∀ s : Token, isSemiTok s = true → ∀ ts d, noTopSemi ts d = true →
        endDepth ts d = 0 → dropTerm (ts ++ [s]) d = ts)
    ∧ translate "var x = 1;" = .ok "x = 1"
    ∧ translate "let y = 2;" = .ok "y = 2"
    ∧ translate "const z = 3;" = .ok "z = 3" :=
  ⟨dropDecl_strip, dropTerm_append, by decide, by decide, by decide⟩

theorem claim_C2_witness :
    dropDecl [⟨.keyword, "var".toList, 0⟩, ⟨.whitespace, [' '], 3⟩,
        ⟨.identifier, ['x'], 4⟩] = [⟨.identifier, ['x'], 4⟩]
    ∧ dropTerm ([⟨.identifier, ['x'], 0⟩] ++ [⟨.punctuation, [';'], 1⟩]) 0
        = [⟨.identifier, ['x'], 0⟩] :=
  ⟨claim_C2.1 _ _ _ rfl (by decide) rfl,
   claim_C2.2.1 _ (by decide) _ 0 (by decide) (by decide)⟩

/-- C3: tokenization is total and lossless — for every input accepted by
the Tokenizer, concatenating the text fields of all tokens in order
reproduces the input string exactly, so every input character belongs to
exactly one token. -/
theorem claim_C3 (s : String) (ts : List Token) (h : tokenize 0 s.data = .ok ts) :
    (ts.map Token.text).flatten = s.data ∧
      ((ts.map Token.text).flatten).asString = s := by
  have h1 := tokenize_flatten 0 s.data ts h
  exact ⟨h1, by rw [h1]; rfl⟩

def c3toks : List Token :=
  [⟨.keyword, "var".toList, 0⟩, ⟨.whitespace, [' '], 3⟩, ⟨.identifier, ['x'], 4⟩,
   ⟨.whitespace, [' '], 5⟩, ⟨.punctuation, ['='], 6⟩, ⟨.whitespace, [' '], 7⟩,
   ⟨.number, ['1'], 8⟩, ⟨.punctuation, [';'], 9⟩]

theorem claim_C3_witness :
    tokenize 0 "var x = 1;".data = .ok c3toks ∧
      (c3toks.map Token.text).flatten = "var x = 1;".data ∧
      ((c3toks.map Token.text).flatten).asString = "var x = 1;" :=
  ⟨by decide, claim_C3 "var x = 1;" c3toks (by decide)⟩

/-- C4: malformed input — an unterminated string, an unterminated block
comment, or unbalanced brackets at end of input (e.g. an unmatched opening
brace) — makes `translate` return a distinct `FatalSyntaxError` failure
value with no output text: fatal errors propagate and no partial
translation is ever returned. -/
theorem claim_C4 :
    (∀ (s : String) (e : TransErr), tokenize 0 s.data = .error e →
      translate s = .error e)
    ∧ (∀ (s : String) (ts : List Token) (e : TransErr),
        tokenize 0 s.data = .ok ts → group s.data.length ts = .error e →
        translate s = .error e)
    ∧ translate "x = 'abc;" = .error (.unterminatedString 4)
    ∧ translate "/* foo" = .error (.unterminatedComment 0)
    ∧ translate "x = \x7b" = .error (.unbalanced 5) :=
  ⟨translate_tokErr, translate_groupErr, by decide, by decide, by decide⟩

theorem claim_C4_witness :
    translate "'a" = .error (.unterminatedString 0) :=
  claim_C4.1 "'a" (.unterminatedString 0) (by decide)

/-- C5: unsupported-construct containment — translation is per-statement
(the output is the in-order emission of every statement, so no statement
is skipped or corrupted), a statement still containing an unsupported
construct is emitted byte-identical behind a warning marker, and a snippet
with one unsupported statement among three supported ones returns all
three translated with only the unsupported one flagged. -/
theorem claim_C5 :
    (∀ (s : String) (ts : List Token) (ss : List Statement),
      tokenize 0 s.data = .ok ts → group s.data.length ts = .ok ss →
      translate s
        = .ok ((ss.map fun pr => rewriteStmt pr.1 ++ boundText pr.2).flatten.asString))
    ∧ (∀ (st : List Token) (cat : List Char),
        unsupportedCat (lambdaRewrite st) = some cat →
        rewriteStmt st = warnMarker cat ++ textOf st)
    ∧ translate "var a = 1;\nswitch (x) \x7b case 1: break; \x7d\nvar b = 2;\nvar c = 3;"
      = .ok "a = 1\n# UNSUPPORTED: switch\nswitch (x) \x7b case 1: break; \x7d\nb = 2\nc = 3" :=
  ⟨fun s ts ss h1 h2 => translate_shape s ts ss h1 h2, rewriteStmt_flagged, by decide⟩

def c5toks : List Token :=
  [⟨.identifier, ['a'], 0⟩, ⟨.whitespace, [' '], 1⟩, ⟨.punctuation, ['='], 2⟩,
   ⟨.whitespace, [' '], 3⟩, ⟨.number, ['1'], 4⟩]

theorem claim_C5_witness :
    translate "a = 1"
      = .ok (([(c5toks, Bound.eof)].map
          fun pr => rewriteStmt pr.1 ++ boundText pr.2).flatten.asString)
    ∧ rewriteStmt [⟨.identifier, "for".toList, 0⟩]
        = warnMarker "for".toList ++ textOf [⟨.identifier, "for".toList, 0⟩] :=
  ⟨claim_C5.1 "a = 1" c5toks [(c5toks, Bound.eof)] (by decide) (by decide),
   claim_C5.2.1 [⟨.identifier, "for".toList, 0⟩] "for".toList (by decide)⟩

/-- C6: idempotence on already-target text — for every snippet containing
no source-dialect-only constructs (within the supported grammar subset, as
spelled out by `sourceFree`), `translate` returns it unchanged. -/
theorem claim_C6 (s : String) (h : sourceFree s = true) : translate s = .ok s := by
  rw [sourceFree] at h
  cases h1 : tokenize 0 s.data with
  | error e => rw [h1] at h; cases h
  | ok ts =>
    simp only [h1] at h
    cases h2 : group s.data.length ts with
    | error e =>
      simp only [h2] at h
      simp at h
    | ok ss =>
      simp only [h2] at h
      simp only [Bool.and_eq_true, List.all_eq_true] at h
      obtain ⟨hallok, hss⟩ := h
      have hsemi : ∀ t ∈ ts, isSemiTok t = false := by
        intro t ht
        have hx := hallok t ht
        cases hy : isSemiTok t
        · rfl
        · simp [tokOk, hy] at hx
      have h2' : groupGo s.data.length (2 * ts.length + 2) ts 0 [] false = .ok ss := h2
      obtain ⟨hrecon, hbounds, hmem⟩ :=
        groupGo_recon s.data.length (2 * ts.length + 2) ts 0 [] ss (by omega) hsemi h2'
      have hemit : emit ss = textOf ts := by
        rw [emit]
        have hmap : ∀ pr ∈ ss, rewriteStmt pr.1 ++ boundText pr.2
            = textOf pr.1 ++ boundText pr.2 := by
          intro pr hpr
          have hck := hss pr hpr
          simp only [Bool.and_eq_true] at hck
          have hokst : ∀ t ∈ pr.1, tokOk t = true := by
            intro t ht
            rcases hmem pr hpr t ht with hx | hx
            · exact hallok t hx
            · cases hx
          rw [rewriteStmt_id pr.1 hokst hck.1 hck.2]
        rw [List.map_congr_left hmap]
        rw [hrecon]
        simp [textOf]
      rw [translate_shape s ts ss h1 h2, hemit]
      rw [show textOf ts = s.data from tokenize_flatten 0 s.data ts h1]
      rfl

theorem claim_C6_witness :
    sourceFree "Map.add_ee_layer(img, vis, 'x')\n" = true ∧
      translate "Map.add_ee_layer(img, vis, 'x')\n"
        = .ok "Map.add_ee_layer(img, vis, 'x')\n" :=
  ⟨by decide, claim_C6 "Map.add_ee_layer(img, vis, 'x')\n" (by decide)⟩

/-- Number of logical statements an input groups into. -/
def stmtCount (s : String) : Except TransErr Nat :=
  match tokenize 0 s.data with
  | .error e => .error e
  | .ok ts => (group s.data.length ts).map List.length

/-- C7: a statement split across physical lines under the source
dialect's continuation convention (line breaks at non-zero bracket depth
or mid-chain) is absorbed into one logical statement and re-emitted using
the target dialect's backslash continuation convention; the output never
splits in the middle of a token (all non-comment, non-string tokens are
exactly a newline or newline-free, so emitted line breaks fall on token
boundaries). -/
theorem claim_C7 :
    (∀ (endPos : Nat) (ts : List Token), chainOk ts 0 = true → ts ≠ [] →
      group endPos ts = .ok [(ts, .eof)])
    ∧ (∀ (p : Nat) (cs : List Char) (ts : List Token), tokenize p cs = .ok ts →
        ∀ t ∈ ts, t.kind ≠ .comment → t.kind ≠ .string →
          t.text = ['\n'] ∨ '\n' ∉ t.text)
    ∧ stmtCount "var landsat = ee.ImageCollection('LC08')\n    .filterDate('2020-01-01', '2020-12-31')\n    .median();" = .ok 1
    ∧ translate "var landsat = ee.ImageCollection('LC08')\n    .filterDate('2020-01-01', '2020-12-31')\n    .median();"
      = .ok "landsat = ee.ImageCollection('LC08') \\\n    .filterDate('2020-01-01', '2020-12-31') \\\n    .median()" := by
  refine ⟨?_, ?_, by decide, by decide⟩
  · intro endPos ts hch hne
    have := groupGo_single endPos (2 * ts.length + 2) ts 0 [] (by omega) hch (Or.inr hne)
    simpa [group] using this
  · intro p cs ts h t ht hc hs
    exact tokGo_nl cs.length p cs ts h t ht hc hs

def c7toks : List Token :=
  [⟨.identifier, ['a'], 0⟩, ⟨.punctuation, ['('], 1⟩, ⟨.punctuation, [')'], 2⟩,
   ⟨.whitespace, ['\n'], 3⟩, ⟨.whitespace, [' ', ' '], 4⟩, ⟨.punctuation, ['.'], 6⟩,
   ⟨.identifier, ['b'], 7⟩, ⟨.punctuation, ['('], 8⟩, ⟨.punctuation, [')'], 9⟩]

theorem claim_C7_witness :
    group 10 c7toks = .ok [(c7toks, Bound.eof)] :=
  claim_C7.1 10 c7toks (by decide) (by decide)

/-- C8 counterexample: the accepted input `x = 1` translates to `x = 1`,
whose output does not end with a trailing newline — so the Emitter does
not guarantee exactly one trailing newline on every accepted input. -/
theorem claim_C8_counterexample :
    translate "x = 1" = .ok "x = 1" ∧ "x = 1".data.getLast? ≠ some '\n' :=
  ⟨by decide, by decide⟩

/-- C8 (amended): for every accepted input the Emitter's output is the
concatenation, in input order, of the rewritten statements each followed
by its boundary newline — statement order always equals input order and
nothing is reordered — and the output ends with a trailing newline exactly
when the input's last statement was closed by one (none is appended:
`x = 1` stays `x = 1`, `x = 1\n` stays `x = 1\n`). -/
theorem claim_C8 :
    (∀ (s : String) (ts : List Token) (ss : List Statement),
      tokenize 0 s.data = .ok ts → group s.data.length ts = .ok ss →
      translate s
        = .ok ((ss.map fun pr => rewriteStmt pr.1 ++ boundText pr.2).flatten.asString))
    ∧ translate "x = 1\n" = .ok "x = 1\n"
    ∧ translate "x = 1" = .ok "x = 1" :=
  ⟨fun s ts ss h1 h2 => translate_shape s ts ss h1 h2, by decide, by decide⟩

def c8toks : List Token :=
  [⟨.identifier, ['b'], 0⟩, ⟨.whitespace, [' '], 1⟩, ⟨.punctuation, ['='], 2⟩,
   ⟨.whitespace, [' '], 3⟩, ⟨.number, ['2'], 4⟩]

theorem claim_C8_witness :
    translate "b = 2"
      = .ok (([(c8toks, Bound.eof)].map
          fun pr => rewriteStmt pr.1 ++ boundText pr.2).flatten.asString) :=
  claim_C8.1 "b = 2" c8toks [(c8toks, Bound.eof)] (by decide) (by decide)

/-- C9: an anonymous-function literal as the sole argument of a designated
higher-order call is rewritten to the inline `lambda` form exactly when
its body is a single return expression (the recognizer accepts the whole
single-return family), and a literal whose body contains statements is
left unconverted byte-identical and flagged with the unsupported-construct
warning instead of being restructured. -/
theorem claim_C9 :
    translate "col.map(function(i) \x7b return i.add(1); \x7d);"
      = .ok "col.map(lambda i: i.add(1))"
    ∧ translate "col.map(function(i) \x7b var a = i; return a; \x7d);"
      = .ok "# UNSUPPORTED: function\ncol.map(function(i) \x7b var a = i; return a; \x7d);"
    ∧ (∀ (pTok : Token) (e rest : List Token), pTok.kind = .identifier →
        pTok.text ≠ [')'] → exprOk e 0 = true → trimWs e = e → e ≠ [] →
        parseFunLit (funLitToks pTok e rest) = some ([pTok], e, rest))
    ∧ (∀ (st : List Token) (cat : List Char),
        unsupportedCat (lambdaRewrite st) = some cat →
        rewriteStmt st = warnMarker cat ++ textOf st) :=
  ⟨by decide, by decide, parseFunLit_family, rewriteStmt_flagged⟩

theorem claim_C9_witness :
    parseFunLit (funLitToks ⟨.identifier, ['i'], 0⟩ [⟨.identifier, ['x'], 0⟩] [])
      = some ([⟨.identifier, ['i'], 0⟩], [⟨.identifier, ['x'], 0⟩], []) :=
  claim_C9.2.2.1 ⟨.identifier, ['i'], 0⟩ [⟨.identifier, ['x'], 0⟩] []
    rfl (by decide) (by decide) (by decide) (by decide)

/-- C10: the repository's public name of the translate operation is the
top-level single-argument function `js_snippet_to_python`
(`gmp.js_snippet_to_python`), taking one string of JavaScript snippet text
and returning a plain string of Python code (with fatal errors propagated
as the distinct failure value, not as part of the result text): it is
pointwise the spec's `translate`. -/
theorem claim_C10 : ∀ s : String, js_snippet_to_python s = translate s :=
  fun _ => rfl

end GMP
